import Mathlib

/-!
Shallow embedding of the `bitboards` Rust crate (src/lib.rs).

A `Bitboard<N>` stores its bits in an array of 64-bit words; here the word
array is a `List Nat` whose entries are meant to be `< 2 ^ 64`, and every
`u64` arithmetic step reduces modulo `2 ^ 64` exactly where the machine
operation wraps.  Operations that index the word array in Rust (and hence
can panic through the slice bounds check) return `Option`, with `none`
standing for the abort.
-/

namespace Bitboards

/-- The machine word width of the crate: 64 bits. -/
def W : Nat := 64

/-- `2 ^ 64`, the modulus of `u64` arithmetic. -/
def U64 : Nat := 2 ^ 64

/-- Number of 64-bit words backing a bitboard of capacity `capacity`:
the type alias `Bitboard<const N>` instantiates `BitboardInternal<{(N-1)/64 + 1}, _>`. -/
def wordCount (capacity : Nat) : Nat := (capacity - 1) / 64 + 1

/-- The word array of a bitboard: the `words: [u64; N]` field. -/
abbrev Words := List Nat

/-- Well-formedness: every stored word fits in a `u64`. -/
def wf (ws : Words) : Prop := ∀ w ∈ ws, w < U64

instance (ws : Words) : Decidable (wf ws) := by
  unfold wf; infer_instance

/-- `Bitboard::new`: all words zero (`std::mem::zeroed`). -/
def new (capacity : Nat) : Words := List.replicate (wordCount capacity) 0

/-- The single-bit mask `1 << (index % 64)` used by `word_mask`. -/
def mask (index : Nat) : Nat := 1 <<< (index % 64)

/-- `set_word`: `self.words[index / 64] |= word << (index % 64)`, where the
shift is a `u64` shift (overflowing bits are discarded).  `none` models the
slice bounds-check panic when `index / 64` is out of range. -/
def set_word (ws : Words) (index word : Nat) : Option Words :=
  match ws[index / 64]? with
  | none => none
  | some w => some (ws.set (index / 64) (w ||| ((word <<< (index % 64)) % U64)))

/-- `set`: `self.set_word(index, 1)`. -/
def set (ws : Words) (index : Nat) : Option Words :=
  set_word ws index 1

/-- `unset`, exactly as written in the source: `*word |= !mask` — the word is
OR-ed with the complement of the mask (`!m` on `u64` is `m ^^^ (2^64 - 1)`). -/
def unset (ws : Words) (index : Nat) : Option Words :=
  match ws[index / 64]? with
  | none => none
  | some w => some (ws.set (index / 64) (w ||| (mask index ^^^ (U64 - 1))))

/-- `is_set`: `word & mask != 0`. -/
def is_set (ws : Words) (index : Nat) : Option Bool :=
  match ws[index / 64]? with
  | none => none
  | some w => some (decide (w &&& mask index ≠ 0))

/-- `is_unset`: `!self.is_set(index)`. -/
def is_unset (ws : Words) (index : Nat) : Option Bool :=
  (is_set ws index).map (fun b => !b)

/-- `is_empty`: `self.words.iter().all(|&w| w == 0)`. -/
def is_empty (ws : Words) : Bool :=
  ws.all (fun w => w == 0)

/-- `AddAssign` (union): word-wise `|=` over the zipped word arrays. -/
def add_assign (a b : Words) : Words :=
  List.zipWith (fun x y => x ||| y) a b

/-- `SubAssign` (set difference): word-wise `*word &= !other_word`. -/
def sub_assign (a b : Words) : Words :=
  List.zipWith (fun x y => x &&& (y ^^^ (U64 - 1))) a b

/-- The body of `set_whole_line` after the assertion.  Note the source's mask
expression `2 ^ (line_size as u64) - 1`: in Rust `^` is bitwise XOR and binds
looser than `-`, so `ones = 2 XOR (line_size - 1)` with wrapping `u64`
subtraction — not `2^line_size - 1`. -/
def set_whole_line_body (ws : Words) (line_no line_size : Nat) : Option Words :=
  let start_index := line_no * line_size
  let start_pos := start_index % 64
  let ones := 2 ^^^ ((line_size + (U64 - 1)) % U64)
  if start_pos + line_size < 64 then
    set_word ws start_index ones
  else
    match set_word ws start_index ones with
    | none => none
    | some ws1 =>
      let second_ones := (ones <<< (64 - start_pos)) % U64
      let transition_index := start_index + 64 - start_pos
      set_word ws1 transition_index second_ones

/-- `set_whole_line`: `assert!(line_size < 64)` then the body; `none` on
assertion failure (or on an out-of-range word access in the body). -/
def set_whole_line (ws : Words) (line_no line_size : Nat) : Option Words :=
  if line_size < 64 then set_whole_line_body ws line_no line_size else none

end Bitboards

namespace Bitboards

theorem mask_eq (i : Nat) : mask i = 2 ^ (i % 64) := by
  rw [mask, Nat.one_shiftLeft]

theorem shifted_one (i : Nat) : (1 <<< (i % 64)) % U64 = 2 ^ (i % 64) := by
  rw [Nat.one_shiftLeft, U64]
  exact Nat.mod_eq_of_lt (Nat.pow_lt_pow_right (by omega) (Nat.mod_lt _ (by omega)))

theorem and_mask_decide (w i : Nat) :
    decide (w &&& mask i ≠ 0) = w.testBit (i % 64) := by
  rw [mask_eq, Nat.and_two_pow]
  cases h : w.testBit (i % 64)
  · simp
  · have hne : (Bool.toNat true) * 2 ^ (i % 64) ≠ 0 := by
      simpa using (Nat.two_pow_pos (i % 64)).ne'
    simp [hne]

theorem is_set_eq_of_get (ws : Words) (i w : Nat) (h : ws[i / 64]? = some w) :
    is_set ws i = some (w.testBit (i % 64)) := by
  simp only [is_set, h, and_mask_decide]

theorem set_eq_of_get (ws : Words) (i w : Nat) (h : ws[i / 64]? = some w) :
    set ws i = some (ws.set (i / 64) (w ||| 2 ^ (i % 64))) := by
  simp only [set, set_word, h, shifted_one]

theorem div_lt_wordCount_of_lt {C i : Nat} (h : i < C) : i / 64 < wordCount C := by
  rw [wordCount]
  exact Nat.lt_succ_of_le (Nat.div_le_div_right (by omega))

theorem ops_none (ws : Words) (i : Nat) (h : ws.length ≤ i / 64) :
    set ws i = none ∧ unset ws i = none ∧ is_set ws i = none ∧ is_unset ws i = none := by
  have hg : ws[i / 64]? = none := List.getElem?_eq_none h
  refine ⟨?_, ?_, ?_, ?_⟩ <;> simp [set, set_word, unset, is_set, is_unset, hg]

theorem set_is_set_self (ws : Words) (i : Nat) (h : i / 64 < ws.length) :
    (set ws i).bind (fun t => is_set t i) = some true := by
  have hw : ws[i / 64]? = some ws[i / 64] := List.getElem?_eq_getElem h
  rw [set_eq_of_get ws i _ hw]
  simp only [Option.some_bind]
  rw [is_set_eq_of_get _ _ _ (List.getElem?_set_self h)]
  simp [Nat.testBit_or, Nat.testBit_two_pow_self]

/-- C1: the claim says `set_whole_line(0, 8)` on an empty 64-bit set yields bits
0–7 set; the code instead computes the line mask as `2 XOR (8 - 1) = 5`, so the
result is the single word `5` — bits 0 and 2 set, bit 1 (and 3–7) clear. -/
theorem spec_C1 :
    set_whole_line (new 64) 0 8 = some [5] ∧
    (set_whole_line (new 64) 0 8).bind (fun t => is_set t 1) = some false ∧
    (set_whole_line (new 64) 0 8).bind (fun t => is_set t 7) = some false := by
  decide

/-- C2: the claim says `set(0)` then `unset(0)` leaves `is_set(0) = false`; the
code's `unset` does `*word |= !mask`, so the word becomes `2^64 - 1` and
`is_set(0)` is still `true`. -/
theorem spec_C2 :
    set (new 64) 0 = some [1] ∧
    unset [1] 0 = some [U64 - 1] ∧
    (set (new 64) 0).bind (fun t => (unset t 0).bind (fun u => is_set u 0)) =
      some true := by
  decide

/-- C3 counterexample: with capacity 1, index 1 is out of range, yet none of
the four operations fails — `set` silently flips a padding bit of word 0. -/
theorem spec_C3_cex :
    (set (new 1) 1).isSome = true ∧ (unset (new 1) 1).isSome = true ∧
    is_set (new 1) 1 = some false ∧ is_unset (new 1) 1 = some true ∧
    set (new 1) 1 = some [2] := by
  decide

/-- C3 amended: the bounds check is the word-array access `words[index / 64]`,
so the operations abort exactly when `index ≥ wordCount * 64`, not when
`index ≥ Capacity`. -/
theorem spec_C3 (C : Nat) (ws : Words) (i : Nat) (hlen : ws.length = wordCount C)
    (hi : wordCount C * 64 ≤ i) :
    set ws i = none ∧ unset ws i = none ∧ is_set ws i = none ∧
    is_unset ws i = none := by
  apply ops_none
  rw [hlen]
  exact (Nat.le_div_iff_mul_le (by omega)).mpr hi

/-- Witness for C3: capacity 1, index 64 is beyond the single backing word. -/
theorem spec_C3_w :
    set [0] 64 = none ∧ unset [0] 64 = none ∧ is_set [0] 64 = none ∧
    is_unset [0] 64 = none :=
  spec_C3 1 [0] 64 (by decide) (by decide)

/-- C4: a fresh bitboard has every word zero, so every valid index reads as
unset and the board is empty. -/
theorem spec_C4 (C i : Nat) (hC : 1 ≤ C) (hi : i < C) :
    is_set (new C) i = some false ∧ is_empty (new C) = true := by
  constructor
  · have h : (new C)[i / 64]? = some 0 := by
      rw [new]
      exact List.getElem?_replicate_of_lt (div_lt_wordCount_of_lt hi)
    rw [is_set_eq_of_get _ _ _ h]
    simp
  · simp [is_empty, new]

/-- Witness for C4: capacity 64, index 7. -/
theorem spec_C4_w : is_set (new 64) 7 = some false ∧ is_empty (new 64) = true :=
  spec_C4 64 7 (by decide) (by decide)

/-- C9: `set_whole_line` begins with `assert!(line_size < 64)`: it aborts
whenever `line_size ≥ 64`, and for `line_size < 64` the assertion passes and
the body runs. -/
theorem spec_C9 (ws : Words) (l s : Nat) :
    (64 ≤ s → set_whole_line ws l s = none) ∧
    (s < 64 → set_whole_line ws l s = set_whole_line_body ws l s) := by
  constructor <;> intro h
  · rw [set_whole_line, if_neg (by omega)]
  · rw [set_whole_line, if_pos h]

/-- Witness for C9: line size 64 aborts; line size 5 runs the body. -/
theorem spec_C9_w :
    set_whole_line [0] 0 64 = none ∧
    set_whole_line [0] 0 5 = set_whole_line_body [0] 0 5 :=
  ⟨(spec_C9 [0] 0 64).1 (by decide), (spec_C9 [0] 0 5).2 (by decide)⟩

end Bitboards

namespace Bitboards

theorem add_assign_self (l : Words) : add_assign l l = l := by
  induction l with
  | nil => rfl
  | cons x t ih =>
    show (x ||| x) :: add_assign t t = x :: t
    rw [Nat.or_self, ih]

theorem add_assign_zero (l : Words) : add_assign l (List.replicate l.length 0) = l := by
  induction l with
  | nil => rfl
  | cons x t ih =>
    show (x ||| 0) :: add_assign t (List.replicate t.length 0) = x :: t
    rw [Nat.or_zero, ih]

/-- C5: after `set(i)` at a valid index, `is_set(i)` is true, `is_unset(i)` is
false, and the board is no longer empty. -/
theorem spec_C5 (C : Nat) (ws : Words) (i : Nat) (hlen : ws.length = wordCount C)
    (hi : i < C) :
    (set ws i).bind (fun t => is_set t i) = some true ∧
    (set ws i).bind (fun t => is_unset t i) = some false ∧
    (set ws i).map is_empty = some false := by
  have hk : i / 64 < ws.length := by
    rw [hlen]; exact div_lt_wordCount_of_lt hi
  have hw : ws[i / 64]? = some ws[i / 64] := List.getElem?_eq_getElem hk
  have hset := set_eq_of_get ws i _ hw
  have hget2 : (ws.set (i / 64) (ws[i / 64] ||| 2 ^ (i % 64)))[i / 64]? =
      some (ws[i / 64] ||| 2 ^ (i % 64)) := List.getElem?_set_self hk
  have hbit : (ws[i / 64] ||| 2 ^ (i % 64)).testBit (i % 64) = true := by
    simp [Nat.testBit_or, Nat.testBit_two_pow_self]
  have hisset : is_set (ws.set (i / 64) (ws[i / 64] ||| 2 ^ (i % 64))) i = some true := by
    rw [is_set_eq_of_get _ _ _ hget2, hbit]
  refine ⟨?_, ?_, ?_⟩
  · rw [hset, Option.some_bind]
    exact hisset
  · rw [hset, Option.some_bind, is_unset, hisset]
    rfl
  · rw [hset, Option.map_some']
    have hne0 : (ws[i / 64] ||| 2 ^ (i % 64)) ≠ 0 := by
      intro h0
      rw [h0] at hbit
      simp at hbit
    have : is_empty (ws.set (i / 64) (ws[i / 64] ||| 2 ^ (i % 64))) = false := by
      rw [is_empty]
      refine List.all_eq_false.mpr ⟨ws[i / 64] ||| 2 ^ (i % 64), ?_, by simp [hne0]⟩
      exact List.getElem?_mem hget2
    rw [this]

/-- Witness for C5: capacity 64, index 3 on the empty board. -/
theorem spec_C5_w :
    (set [0] 3).bind (fun t => is_set t 3) = some true ∧
    (set [0] 3).bind (fun t => is_unset t 3) = some false ∧
    (set [0] 3).map is_empty = some false :=
  spec_C5 64 [0] 3 (by decide) (by decide)

/-- C6: setting a valid bit `i` does not change `is_set(j)` for any other
valid index `j`, whether `j` lives in the same backing word or a different
one. -/
theorem spec_C6 (C : Nat) (ws : Words) (i j : Nat) (hlen : ws.length = wordCount C)
    (hi : i < C) (hj : j < C) (hne : j ≠ i) :
    (set ws i).bind (fun t => is_set t j) = is_set ws j := by
  have hki : i / 64 < ws.length := by
    rw [hlen]; exact div_lt_wordCount_of_lt hi
  have hkj : j / 64 < ws.length := by
    rw [hlen]; exact div_lt_wordCount_of_lt hj
  have hwi : ws[i / 64]? = some ws[i / 64] := List.getElem?_eq_getElem hki
  rw [set_eq_of_get ws i _ hwi, Option.some_bind]
  by_cases hk : j / 64 = i / 64
  · have hr : j % 64 ≠ i % 64 := by
      intro hr
      apply hne
      omega
    have hget2 : (ws.set (i / 64) (ws[i / 64] ||| 2 ^ (i % 64)))[j / 64]? =
        some (ws[i / 64] ||| 2 ^ (i % 64)) := by
      rw [hk]
      exact List.getElem?_set_self hki
    have hwj : ws[j / 64]? = some ws[i / 64] := by
      rw [hk]
      exact hwi
    rw [is_set_eq_of_get _ _ _ hget2, is_set_eq_of_get _ _ _ hwj]
    congr 1
    rw [Nat.testBit_or, Nat.testBit_two_pow_of_ne (fun h => hr h.symm)]
    simp
  · have hget2 : (ws.set (i / 64) (ws[i / 64] ||| 2 ^ (i % 64)))[j / 64]? = ws[j / 64]? :=
      List.getElem?_set_ne (Ne.symm hk)
    simp only [is_set, hget2]

/-- Witness for C6: capacity 64, set index 3, query index 5. -/
theorem spec_C6_w : (set [0] 3).bind (fun t => is_set t 5) = is_set [0] 5 :=
  spec_C6 64 [0] 3 5 (by decide) (by decide) (by decide) (by decide)

/-- C7: union (`+=`, word-wise OR) is commutative and idempotent and has the
fresh (all-zero) board as right identity. -/
theorem spec_C7 (C : Nat) (a b : Words) (ha : a.length = wordCount C)
    (hb : b.length = wordCount C) :
    add_assign a b = add_assign b a ∧ add_assign a a = a ∧
    add_assign a (new C) = a := by
  refine ⟨List.zipWith_comm_of_comm _ Nat.or_comm a b, add_assign_self a, ?_⟩
  rw [new, ← ha]
  exact add_assign_zero a

/-- Witness for C7: two one-word boards of capacity 64. -/
theorem spec_C7_w :
    add_assign [3] [5] = add_assign [5] [3] ∧ add_assign [3] [3] = [3] ∧
    add_assign [3] (new 64) = [3] :=
  spec_C7 64 [3] [5] (by decide) (by decide)

/-- C10: the bounds check of the single-bit operations is at word granularity:
for a padding index (`Capacity ≤ i < wordCount * 64`) all four operations
succeed — `set` flips the padding bit and `is_set` reads it back — while any
index at or beyond `wordCount * 64` aborts. -/
theorem spec_C10 (C : Nat) (ws : Words) (i : Nat) (hlen : ws.length = wordCount C)
    (hC : C ≤ i) (hi : i < wordCount C * 64) :
    ((set ws i).isSome = true ∧ (unset ws i).isSome = true ∧
      (is_set ws i).isSome = true ∧ (is_unset ws i).isSome = true) ∧
    (set ws i).bind (fun t => is_set t i) = some true ∧
    ∀ j, wordCount C * 64 ≤ j →
      set ws j = none ∧ unset ws j = none ∧ is_set ws j = none ∧
      is_unset ws j = none := by
  have hk : i / 64 < ws.length := by
    rw [hlen]
    exact (Nat.div_lt_iff_lt_mul (by omega)).mpr hi
  have hw : ws[i / 64]? = some ws[i / 64] := List.getElem?_eq_getElem hk
  refine ⟨⟨?_, ?_, ?_, ?_⟩, set_is_set_self ws i hk, ?_⟩
  · rw [set_eq_of_get ws i _ hw]
    rfl
  · simp [unset, hw]
  · simp [is_set, hw]
  · simp [is_unset, is_set, hw]
  · intro j hj
    apply ops_none
    rw [hlen]
    exact (Nat.le_div_iff_mul_le (by omega)).mpr hj

/-- Witness for C10: capacity 65 (two words), padding index 70, aborting
index 200. -/
theorem spec_C10_w :
    (((set [0, 0] 70).isSome = true ∧ (unset [0, 0] 70).isSome = true ∧
      (is_set [0, 0] 70).isSome = true ∧ (is_unset [0, 0] 70).isSome = true) ∧
    (set [0, 0] 70).bind (fun t => is_set t 70) = some true) ∧
    (set [0, 0] 200 = none ∧ unset [0, 0] 200 = none ∧
      is_set [0, 0] 200 = none ∧ is_unset [0, 0] 200 = none) :=
  ⟨⟨(spec_C10 65 [0, 0] 70 (by decide) (by decide) (by decide)).1,
    (spec_C10 65 [0, 0] 70 (by decide) (by decide) (by decide)).2.1⟩,
    (spec_C10 65 [0, 0] 70 (by decide) (by decide) (by decide)).2.2 200 (by decide)⟩


end Bitboards

namespace Bitboards

theorem testBit_compl64 (b : Nat) (hb : b < U64) (i : Nat) :
    (b ^^^ (U64 - 1)).testBit i = (decide (i < 64) && !b.testBit i) := by
  have hU : U64 = 2 ^ 64 := rfl
  rw [Nat.testBit_xor]
  by_cases h : i < 64
  · have h1 : (U64 - 1).testBit i = true := by
      rw [hU, Nat.testBit_two_pow_sub_one]
      simp [h]
    rw [h1]
    simp [h]
  · have h1 : (U64 - 1).testBit i = false := by
      rw [hU, Nat.testBit_two_pow_sub_one]
      simp [h]
    have h2 : b.testBit i = false := by
      refine Nat.testBit_lt_two_pow (lt_of_lt_of_le hb ?_)
      rw [hU]
      exact Nat.pow_le_pow_right (by omega) (by omega)
    rw [h1, h2]
    simp [h]

theorem word_diff_or (a b : Nat) (hb : b < U64) :
    (a ||| b) &&& (b ^^^ (U64 - 1)) = a &&& (b ^^^ (U64 - 1)) := by
  apply Nat.eq_of_testBit_eq
  intro i
  rw [Nat.testBit_and, Nat.testBit_and, Nat.testBit_or, testBit_compl64 b hb i]
  cases hb2 : b.testBit i <;> simp

theorem word_diff_self (a : Nat) (ha : a < U64) : a &&& (a ^^^ (U64 - 1)) = 0 := by
  apply Nat.eq_of_testBit_eq
  intro i
  rw [Nat.testBit_and, testBit_compl64 a ha i, Nat.zero_testBit]
  cases a.testBit i <;> simp

theorem word_and_compl_zero (a : Nat) (ha : a < U64) : a &&& (0 ^^^ (U64 - 1)) = a := by
  rw [Nat.zero_xor]
  show a &&& (2 ^ 64 - 1) = a
  exact Nat.and_pow_two_sub_one_of_lt_two_pow ha

theorem word_diff_eq_self_iff (a b : Nat) (ha : a < U64) (hb : b < U64) :
    a &&& (b ^^^ (U64 - 1)) = a ↔ a &&& b = 0 := by
  constructor
  · intro h
    apply Nat.eq_of_testBit_eq
    intro i
    rw [Nat.testBit_and, Nat.zero_testBit]
    have hi := congrArg (fun x => x.testBit i) h
    simp only [Nat.testBit_and, testBit_compl64 b hb i] at hi
    cases hta : a.testBit i <;> cases htb : b.testBit i <;> simp_all
  · intro h
    apply Nat.eq_of_testBit_eq
    intro i
    have hi := congrArg (fun x => x.testBit i) h
    simp only [Nat.testBit_and, Nat.zero_testBit] at hi
    rw [Nat.testBit_and, testBit_compl64 b hb i]
    cases hta : a.testBit i
    · simp
    · have hilt : i < 64 := by
        by_contra hge
        have hlt : a < 2 ^ i := by
          refine lt_of_lt_of_le ha ?_
          show (2 : Nat) ^ 64 ≤ 2 ^ i
          exact Nat.pow_le_pow_right (by omega) (by omega)
        rw [Nat.testBit_lt_two_pow hlt] at hta
        cases hta
      have htb : b.testBit i = false := by
        rw [hta] at hi
        simpa using hi
      rw [htb]
      simp [hilt]

theorem sub_assign_add_assign (a : Words) : ∀ b : Words, wf b →
    sub_assign (add_assign a b) b = sub_assign a b := by
  induction a with
  | nil => intro b _; rfl
  | cons x t ih =>
    intro b hwb
    cases b with
    | nil => rfl
    | cons y u =>
      have hy : y < U64 := hwb y (List.mem_cons_self y u)
      have hwu : wf u := fun w hw => hwb w (List.mem_cons_of_mem y hw)
      show ((x ||| y) &&& (y ^^^ (U64 - 1))) :: sub_assign (add_assign t u) u =
        (x &&& (y ^^^ (U64 - 1))) :: sub_assign t u
      rw [word_diff_or x y hy, ih u hwu]

theorem sub_assign_self_eq (a : Words) (hwa : wf a) :
    sub_assign a a = List.replicate a.length 0 := by
  induction a with
  | nil => rfl
  | cons x t ih =>
    have hx : x < U64 := hwa x (List.mem_cons_self x t)
    have hwt : wf t := fun w hw => hwa w (List.mem_cons_of_mem x hw)
    show (x &&& (x ^^^ (U64 - 1))) :: sub_assign t t = 0 :: List.replicate t.length 0
    rw [word_diff_self x hx, ih hwt]

theorem sub_assign_zero (a : Words) (hwa : wf a) :
    sub_assign a (List.replicate a.length 0) = a := by
  induction a with
  | nil => rfl
  | cons x t ih =>
    have hx : x < U64 := hwa x (List.mem_cons_self x t)
    have hwt : wf t := fun w hw => hwa w (List.mem_cons_of_mem x hw)
    show (x &&& (0 ^^^ (U64 - 1))) :: sub_assign t (List.replicate t.length 0) = x :: t
    rw [word_and_compl_zero x hx, ih hwt]

theorem is_set_true_elim {ws : Words} {i : Nat} (h : is_set ws i = some true) :
    ∃ w, ws[i / 64]? = some w ∧ w.testBit (i % 64) = true := by
  cases hg : ws[i / 64]? with
  | none =>
    simp only [is_set, hg] at h
    cases h
  | some w =>
    have he := is_set_eq_of_get ws i w hg
    rw [he] at h
    exact ⟨w, rfl, Option.some.inj h⟩

theorem sub_assign_eq_self_words (a b : Words) (hwa : wf a) (hwb : wf b)
    (hlen : a.length = b.length) :
    sub_assign a b = a ↔
      ∀ (k x y : Nat), a[k]? = some x → b[k]? = some y → x &&& y = 0 := by
  constructor
  · intro h k x y hx hy
    have hgk := congrArg (fun l => l[k]?) h
    simp only [sub_assign, List.getElem?_zipWith, hx, hy] at hgk
    have heq : x &&& (y ^^^ (U64 - 1)) = x := Option.some.inj hgk
    exact (word_diff_eq_self_iff x y (hwa x (List.getElem?_mem hx))
      (hwb y (List.getElem?_mem hy))).mp heq
  · intro h
    apply List.ext_getElem?
    intro k
    by_cases hk : k < a.length
    · have hkb : k < b.length := hlen ▸ hk
      have hx : a[k]? = some a[k] := List.getElem?_eq_getElem hk
      have hy : b[k]? = some b[k] := List.getElem?_eq_getElem hkb
      simp only [sub_assign, List.getElem?_zipWith, hx, hy]
      rw [(word_diff_eq_self_iff a[k] b[k] (hwa _ (List.getElem?_mem hx))
        (hwb _ (List.getElem?_mem hy))).mpr (h k a[k] b[k] hx hy)]
    · have hna : a[k]? = none := List.getElem?_eq_none (by omega)
      have hnz : (sub_assign a b)[k]? = none := by
        apply List.getElem?_eq_none
        rw [sub_assign, List.length_zipWith]
        omega
      rw [hna, hnz]

theorem sub_assign_eq_self_iff (a b : Words) (hwa : wf a) (hwb : wf b)
    (hlen : a.length = b.length) :
    sub_assign a b = a ↔
      ∀ i, ¬(is_set a i = some true ∧ is_set b i = some true) := by
  rw [sub_assign_eq_self_words a b hwa hwb hlen]
  constructor
  · rintro h i ⟨hia, hib⟩
    obtain ⟨x, hgx, htx⟩ := is_set_true_elim hia
    obtain ⟨y, hgy, hty⟩ := is_set_true_elim hib
    have hz := h (i / 64) x y hgx hgy
    have hbit := congrArg (fun v => v.testBit (i % 64)) hz
    simp only [Nat.testBit_and, Nat.zero_testBit] at hbit
    rw [htx, hty] at hbit
    simp at hbit
  · intro h k x y hx hy
    apply Nat.eq_of_testBit_eq
    intro r
    rw [Nat.testBit_and, Nat.zero_testBit]
    by_cases hr : r < 64
    · have hdiv : (k * 64 + r) / 64 = k := by omega
      have hmod : (k * 64 + r) % 64 = r := by omega
      have hga : a[(k * 64 + r) / 64]? = some x := by
        rw [hdiv]
        exact hx
      have hgb : b[(k * 64 + r) / 64]? = some y := by
        rw [hdiv]
        exact hy
      have hia := is_set_eq_of_get a (k * 64 + r) x hga
      have hib := is_set_eq_of_get b (k * 64 + r) y hgb
      rw [hmod] at hia hib
      cases htx : x.testBit r
      · simp
      · cases hty : y.testBit r
        · simp
        · exfalso
          apply h (k * 64 + r)
          rw [hia, hib, htx, hty]
          exact ⟨rfl, rfl⟩
    · have htx : x.testBit r = false := by
        refine Nat.testBit_lt_two_pow (lt_of_lt_of_le (hwa x (List.getElem?_mem hx)) ?_)
        show (2 : Nat) ^ 64 ≤ 2 ^ r
        exact Nat.pow_le_pow_right (by omega) (by omega)
      rw [htx]
      simp

/-- C8: set difference (`-=`, word-wise `AND NOT`) satisfies
`(A ∪ B) − B = A − B`, `A − A = ∅`, `A − ∅ = A`, and the union/difference
round trip `(A ∪ B) − B` returns the original `A` exactly when no bit is set
in both `A` and `B`. -/
theorem spec_C8 (C : Nat) (a b : Words) (hwa : wf a) (hwb : wf b)
    (ha : a.length = wordCount C) (hb : b.length = wordCount C) :
    sub_assign (add_assign a b) b = sub_assign a b ∧
    sub_assign a a = new C ∧
    sub_assign a (new C) = a ∧
    (sub_assign (add_assign a b) b = a ↔
      ∀ i, ¬(is_set a i = some true ∧ is_set b i = some true)) := by
  have hlen : a.length = b.length := by rw [ha, hb]
  refine ⟨sub_assign_add_assign a b hwb, ?_, ?_, ?_⟩
  · rw [sub_assign_self_eq a hwa, new, ha]
  · rw [new, ← ha]
    exact sub_assign_zero a hwa
  · rw [sub_assign_add_assign a b hwb]
    exact sub_assign_eq_self_iff a b hwa hwb hlen

/-- Witness for C8: one-word boards `A = [3]`, `B = [5]` of capacity 64. -/
theorem spec_C8_w :
    sub_assign (add_assign [3] [5]) [5] = sub_assign [3] [5] ∧
    sub_assign [3] [3] = new 64 ∧
    sub_assign [3] (new 64) = [3] ∧
    (sub_assign (add_assign [3] [5]) [5] = [3] ↔
      ∀ i, ¬(is_set [3] i = some true ∧ is_set [5] i = some true)) :=
  spec_C8 64 [3] [5] (by decide) (by decide) (by decide) (by decide)

end Bitboards
